import Mathlib

/-!
Verification development for the facedetect library (facedetect/lib.py).

The development shallowly embeds the normalization, ranking, detection-facade
and structural-similarity code of the FaceDetector class.  External OpenCV
collaborators (Laplacian, Gaussian blur, cascade search) are modelled as
abstract parameters constrained only by the properties the library relies on.
Machine floats are modelled by exact rationals and reals, and numpy integer
pixels by natural numbers.
-/

/-- Axis-aligned rectangle (x, y, width, height), mirroring the 4-tuples
rect[0..3] used throughout lib.py. -/
structure Rect where
  x : ℕ
  y : ℕ
  w : ℕ
  h : ℕ
deriving DecidableEq, Repr

/-- Normalization configuration: the NORM_SIZE and NORM_MARGIN entries of the
configuration dictionary built in FaceDetector.__init__. -/
structure Config where
  NORM_SIZE : ℕ
  NORM_MARGIN : ℕ
deriving DecidableEq, Repr

/-- Default configuration from __init__: NORM_SIZE = 100, NORM_MARGIN = 10. -/
def defaultConfig : Config := ⟨100, 10⟩

/-- Length along one axis of the python slice im[margin:-margin] applied to an
axis of length len, as in _shave_margin.  For margin = 0 the slice [0:-0] is
[0:0], which is empty; otherwise the result is len - 2*margin clamped at 0. -/
def sliceLen (margin len : ℕ) : ℕ :=
  if margin = 0 then 0 else len - 2 * margin

/-- Target size dsize = (width, height) computed by _norm_rect before
resizing.  With same_aspect the code computes scale = side / max(w, h) in
float true division and truncates each scaled side with int(); we model the
float arithmetic exactly with rationals, so int() is the natural floor. -/
def norm_dsize (cfg : Config) (rect : Rect) (same_aspect : Bool) : ℕ × ℕ :=
  let side := cfg.NORM_SIZE + cfg.NORM_MARGIN
  if same_aspect then
    let scale : ℚ := (side : ℚ) / ((max rect.w rect.h : ℕ) : ℚ)
    (⌊(rect.w : ℚ) * scale⌋₊, ⌊(rect.h : ℚ) * scale⌋₊)
  else
    (side, side)

/-- Size (width, height) of the image returned by _norm_rect: the crop is
resized to norm_dsize and then _shave_margin removes NORM_MARGIN pixels from
all four sides. -/
def norm_rect_dims (cfg : Config) (rect : Rect) (same_aspect : Bool) : ℕ × ℕ :=
  let d := norm_dsize cfg rect same_aspect
  (sliceLen cfg.NORM_MARGIN d.1, sliceLen cfg.NORM_MARGIN d.2)

/-- External OpenCV collaborator used by _rank, fixed for one source image:
lap rect is the flattened pixel data of
cv2.Laplacian(_norm_rect(im, rect, equalize=False, same_aspect=True), CV_8U).
The CV_8U output depth makes every pixel an unsigned byte, hence a natural
number. -/
structure CVOps where
  lap : Rect → List ℕ

/-- Laplacian edge-energy estimate of _rank (line e = np.sum(roi_l) / ...):
the sum of the Laplacian pixels divided by shape[0] * shape[1] of the
aspect-preserving normalized crop. -/
noncomputable def sharpness (cv : CVOps) (cfg : Config) (r : Rect) : ℝ :=
  ((cv.lap r).sum : ℝ) /
    (((norm_rect_dims cfg r true).2 : ℝ) * ((norm_rect_dims cfg r true).1 : ℝ))

/-- Centering distance d of _rank for an image of width W and height H:
dx = im.shape[1]/2 - rect[0] + rect[2]/2, dy = im.shape[0]/2 - rect[1] +
rect[3]/2, d = sqrt(dx**2 + dy**2) / (max(im.shape) / 2). -/
noncomputable def centerDistance (W H : ℕ) (r : Rect) : ℝ :=
  Real.sqrt (((W : ℝ) / 2 - (r.x : ℝ) + (r.w : ℝ) / 2) ^ 2 +
      ((H : ℝ) / 2 - (r.y : ℝ) + (r.h : ℝ) / 2) ^ 2) /
    (((max H W : ℕ) : ℝ) / 2)

/-- Raw per-rectangle attributes collected in the first loop of _rank:
s (mean side length), e (sharpness) and d (centering distance). -/
structure RawScore where
  s : ℝ
  e : ℝ
  d : ℝ

/-- First pass of _rank over one rectangle. -/
noncomputable def rawScore (cv : CVOps) (cfg : Config) (W H : ℕ) (r : Rect) :
    RawScore :=
  ⟨((r.w : ℝ) + (r.h : ℝ)) / 2, sharpness cv cfg r, centerDistance W H r⟩

/-- Python max over a nonempty list of floats; on the empty list python
raises, which the library never triggers, and we return 0. -/
noncomputable def listMax : List ℝ → ℝ
  | [] => 0
  | x :: xs => xs.foldl max x

/-- Batch maximum sMax of the size attribute. -/
noncomputable def sMaxOf (raw : List RawScore) : ℝ := listMax (raw.map RawScore.s)

/-- Batch maximum eMax of the sharpness attribute.  The second loop of _rank
divides by this value with no zero guard. -/
noncomputable def eMaxOf (raw : List RawScore) : ℝ := listMax (raw.map RawScore.e)

/-- Full score dictionary of _rank after the second loop: raw attributes plus
sN, eN and the composite fitness f. -/
structure Score where
  s : ℝ
  e : ℝ
  d : ℝ
  sN : ℝ
  eN : ℝ
  f : ℝ

instance : Inhabited Score := ⟨⟨0, 0, 0, 0, 0, 0⟩⟩

/-- Both passes of _rank: build the raw scores, take the batch maxima, then
attach sN = s/sMax, eN = e/eMax and f = eN*0.7 + (1 - d)*0.1 + sN*0.2. -/
noncomputable def rankScores (cv : CVOps) (cfg : Config) (W H : ℕ)
    (rects : List Rect) : List Score :=
  let raw := rects.map (rawScore cv cfg W H)
  let sMax := sMaxOf raw
  let eMax := eMaxOf raw
  raw.map (fun x =>
    ⟨x.s, x.e, x.d, x.s / sMax, x.e / eMax,
      x.e / eMax * 0.7 + (1 - x.d) * 0.1 + x.s / sMax * 0.2⟩)

/-- Sort key of _rank: lambda x: scores[x][f]. -/
noncomputable def fitnessKey (scores : List Score) : ℕ → ℝ :=
  fun i => (scores.map Score.f).getD i 0

/-- Stable insertion of one index into a list sorted by descending key: the
new index goes after every held index of greater or equal key and before the
first one of strictly smaller key. -/
noncomputable def insertDesc (k : ℕ → ℝ) (x : ℕ) : List ℕ → List ℕ
  | [] => [x]
  | y :: ys => if k y < k x then x :: y :: ys else y :: insertDesc k x ys

/-- Stable descending sort, modelling pythons
sorted(l, reverse=True, key=k), whose result is sorted by key descending with
ties kept in original order. -/
noncomputable def sortDesc (k : ℕ → ℝ) (l : List ℕ) : List ℕ :=
  l.foldl (fun acc x => insertDesc k x acc) []

/-- Ranked index list of _rank: sorted(range(len(scores)), reverse=True,
key=lambda x: scores[x][f]).  Position 0 holds the best original index. -/
noncomputable def rankIndices (scores : List Score) : List ℕ :=
  sortDesc (fitnessKey scores) (List.range scores.length)

/-- Second return value ranks[0] of _rank. -/
noncomputable def bestIndex (scores : List Score) : ℕ :=
  (rankIndices scores).headD 0

/-- RANK field assigned by the final loop of _rank: the scores entry at
original index j receives the position of j in the ranked index list. -/
noncomputable def rankOf (scores : List Score) (j : ℕ) : ℕ :=
  (rankIndices scores).indexOf j

/-- Ordering that characterizes the result of a stable descending sort of
distinct indices taken in increasing order: earlier output means strictly
larger key, or equal key and smaller original index. -/
def keyRel (k : ℕ → ℝ) (a b : ℕ) : Prop := k b < k a ∨ (k a = k b ∧ a < b)

/-- OpenCV flag constant cv2.CASCADE_DO_CANNY_PRUNING. -/
def CASCADE_DO_CANNY_PRUNING : ℕ := 1

/-- OpenCV flag constant cv2.CASCADE_FIND_BIGGEST_OBJECT. -/
def CASCADE_FIND_BIGGEST_OBJECT : ℕ := 4

/-- External cascade-search collaborator: detectMultiScale takes the image
(identified by its dimensions), the scale factor, minNeighbors, the flag
word, and the minimum and maximum size bounds, and yields rectangles. -/
structure Cascade where
  detectMultiScale : ℕ × ℕ → ℚ → ℕ → ℕ → ℕ × ℕ → ℕ × ℕ → List Rect

/-- Embedding of FaceDetector.detect for an image of width W and height H:
side = sqrt(im.size) with im.size = W*H, minlen = int(side/20),
maxlen = int(side/2); since int(sqrt(n)/k) = Nat.sqrt n / k (proved below),
the integer bounds are computed with Nat.sqrt. -/
def detect (cc : Cascade) (W H : ℕ) (biggest : Bool) : List Rect :=
  let side := Nat.sqrt (W * H)
  let minlen := side / 20
  let maxlen := side / 2
  let flags := CASCADE_DO_CANNY_PRUNING |||
    (if biggest then CASCADE_FIND_BIGGEST_OBJECT else 0)
  cc.detectMultiScale (W, H) (1.1 : ℚ) 4 flags (minlen, minlen) (maxlen, maxlen)

/-- Grayscale image with real-valued samples, indexed row then column as in
numpy; only the first h rows and w columns are meaningful. -/
def Img : Type := ℕ → ℕ → ℝ

/-- Blur kernel: wgt i j a b is the weight that output pixel (i, j) gives to
input pixel (a, b). -/
def Kern : Type := ℕ → ℕ → ℕ → ℕ → ℝ

/-- Linear filter with kernel wgt over an h-by-w image, modelling
cv2.GaussianBlur(X, (win, win), sigma). -/
noncomputable def blur2 (h w : ℕ) (wgt : Kern) (X : Img) : Img :=
  fun i j => ∑ p ∈ Finset.range h ×ˢ Finset.range w, wgt i j p.1 p.2 * X p.1 p.2

/-- Defining properties of a Gaussian blur kernel actually used by OpenCV:
every weight is nonnegative and for each output pixel the weights form a
convex combination of the input pixels (they sum to 1). -/
def GaussKernel (h w : ℕ) (wgt : Kern) : Prop :=
  ∀ i j : ℕ, (∀ a b : ℕ, 0 ≤ wgt i j a b) ∧
    ∑ p ∈ Finset.range h ×ˢ Finset.range w, wgt i j p.1 p.2 = 1

/-- Per-pixel SSIM map S computed by _mssim_norm before shaving. -/
noncomputable def mssimMap (h w : ℕ) (wgt : Kern) (K1 K2 : ℝ) (win : ℕ)
    (X Y : Img) : Img :=
  fun i j =>
    let C1 := K1 ^ 2
    let C2 := K2 ^ 2
    let covNorm : ℝ := (win : ℝ) ^ 2
    let ux := blur2 h w wgt X i j
    let uy := blur2 h w wgt Y i j
    let uxx := blur2 h w wgt (fun a b => X a b * X a b) i j
    let uyy := blur2 h w wgt (fun a b => Y a b * Y a b) i j
    let uxy := blur2 h w wgt (fun a b => X a b * Y a b) i j
    let vx := covNorm * (uxx - ux * ux)
    let vy := covNorm * (uyy - uy * uy)
    let vxy := covNorm * (uxy - ux * uy)
    ((2 * ux * uy + C1) * (2 * vxy + C2)) /
      ((ux ^ 2 + uy ^ 2 + C1) * (vx + vy + C2))

/-- Index region kept by _shave_margin(S, m) on an h-by-w array: rows and
columns m up to h-m and w-m exclusive; empty for m = 0 as in sliceLen. -/
def shaveRegion (h w m : ℕ) : Finset (ℕ × ℕ) :=
  if m = 0 then ∅ else Finset.Ico m (h - m) ×ˢ Finset.Ico m (w - m)

/-- Result of _mssim_norm: np.mean of the SSIM map shaved by (win - 1) // 2
pixels on all four sides. -/
noncomputable def mssim_norm (h w : ℕ) (wgt : Kern) (K1 K2 : ℝ) (win : ℕ)
    (X Y : Img) : ℝ :=
  (∑ p ∈ shaveRegion h w ((win - 1) / 2), mssimMap h w wgt K1 K2 win X Y p.1 p.2) /
    ((shaveRegion h w ((win - 1) / 2)).card : ℝ)

/-- Embedding of FaceDetector.detect_similar_faces, whose body is the single
statement pass: it returns None for every input. -/
def detect_similar_faces (path : String) (source_image : Img) : Option ℝ :=
  none

/-- Concrete collaborator for a perfectly flat (uniform gray) source image:
the Laplacian of every normalized crop is identically zero. -/
def cvFlat : CVOps := ⟨fun _ => List.replicate 100 0⟩

/-- Uniform averaging kernel on an h-by-w image, the simplest concrete
GaussKernel instance, used to witness the SSIM theorem. -/
noncomputable def uniformKern (h w : ℕ) : Kern :=
  fun _ _ _ _ => 1 / ((h : ℝ) * (w : ℝ))

/-- Claim C10: for every path and source image, detect_similar_faces returns
none; the cross-image similarity entry point is an unimplemented stub, so no
similarity result is ever produced through it. -/
theorem detect_similar_faces_none (path : String) (source_image : Img) :
    detect_similar_faces path source_image = none := rfl

/-- Claim C3 counterexample: with the default configuration (NORM_SIZE = 100,
NORM_MARGIN = 10) the square normalization path resizes to 110 x 110 and then
shaves 10 pixels from all four sides, producing a 90 x 90 image and not the
claimed 100 x 100 image. -/
theorem norm_square_size_cex :
    norm_rect_dims defaultConfig ⟨0, 0, 50, 50⟩ false = (90, 90) ∧
      ((90, 90) : ℕ × ℕ) ≠ ((100, 100) : ℕ × ℕ) := by
  refine ⟨by decide, by decide⟩

/-- Claim C3 amended: for a configuration with NORM_SIZE = N and a positive
NORM_MARGIN = M, normalize with preserveAspect = false returns an image of
exactly (N - M) x (N - M) pixels after margin trimming; with the defaults
N = 100, M = 10 this is a 90 x 90 image. -/
theorem norm_square_size_amended (cfg : Config) (rect : Rect)
    (hM : 0 < cfg.NORM_MARGIN) :
    norm_rect_dims cfg rect false =
      (cfg.NORM_SIZE - cfg.NORM_MARGIN, cfg.NORM_SIZE - cfg.NORM_MARGIN) := by
  have hne : cfg.NORM_MARGIN ≠ 0 := hM.ne'
  simp only [norm_rect_dims, norm_dsize, sliceLen, Bool.false_eq_true, if_false,
    if_neg hne, Prod.mk.injEq]
  omega

/-- Witness for the amended claim C3 at the default configuration. -/
theorem norm_square_size_amended_witness :
    0 < defaultConfig.NORM_MARGIN ∧
      norm_rect_dims defaultConfig ⟨0, 0, 50, 50⟩ false = (90, 90) :=
  ⟨by decide, norm_square_size_amended defaultConfig ⟨0, 0, 50, 50⟩ (by decide)⟩

/-- Claim C4: the sharpness attribute computed by _rank equals the sum of the
absolute values of the Laplacian pixels of the aspect-preserving normalized
crop divided by the crop pixel count width * height; the CV_8U Laplacian
output is nonnegative, so its plain sum is the sum of absolute values. -/
theorem sharpness_abs_sum (cv : CVOps) (cfg : Config) (W H : ℕ) (r : Rect) :
    (rawScore cv cfg W H r).e =
      ((cv.lap r).map (fun p : ℕ => |(p : ℝ)|)).sum /
        (((norm_rect_dims cfg r true).1 : ℝ) *
          ((norm_rect_dims cfg r true).2 : ℝ)) := by
  have h1 : (cv.lap r).map (fun p : ℕ => |(p : ℝ)|) =
      (cv.lap r).map (fun p : ℕ => (p : ℝ)) := by
    refine List.map_congr_left ?_
    intro p _
    exact abs_of_nonneg (Nat.cast_nonneg p)
  show sharpness cv cfg r = _
  rw [sharpness, h1, ← Nat.cast_list_sum]
  ring

/-- Claim C7 at its failing input: for a flat-gray image every candidate has
sharpness 0, the batch maximum eMax computed by _rank is exactly 0, and the
second loop still divides each sharpness by that zero maximum, because the
code contains no all-zero guard. -/
theorem flat_batch_divides_by_zero :
    eMaxOf ([⟨0, 0, 50, 50⟩, ⟨60, 60, 40, 40⟩].map
        (rawScore cvFlat defaultConfig 200 200)) = 0 ∧
      ∀ sc ∈ rankScores cvFlat defaultConfig 200 200
          [⟨0, 0, 50, 50⟩, ⟨60, 60, 40, 40⟩], sc.eN = sc.e / 0 := by
  have he : ∀ r : Rect, sharpness cvFlat defaultConfig r = 0 := by
    intro r
    rw [sharpness]
    simp [cvFlat]
  have hmax : eMaxOf ([⟨0, 0, 50, 50⟩, ⟨60, 60, 40, 40⟩].map
      (rawScore cvFlat defaultConfig 200 200)) = 0 := by
    simp [eMaxOf, rawScore, listMax, he]
  refine ⟨hmax, ?_⟩
  intro sc hsc
  simp only [rankScores, List.mem_map] at hsc
  obtain ⟨x, hx, rfl⟩ := hsc
  simp only []
  rw [hmax]

/-- Claim C5 counterexample: the full-image rectangle (0, 0, 100, 100) is
fully contained in a 100 x 100 image, yet its centering distance is
sqrt(100^2 + 100^2) / 50 = 2 * sqrt 2, which exceeds 1, so the value does not
lie in [0, 1]. -/
theorem centerDistance_exceeds_one :
    1 < centerDistance 100 100 ⟨0, 0, 100, 100⟩ := by
  have h : centerDistance 100 100 ⟨0, 0, 100, 100⟩ = Real.sqrt 20000 / 50 := by
    rw [centerDistance]
    norm_num
  have h50 : (50 : ℝ) < Real.sqrt 20000 := by
    rw [Real.lt_sqrt (by norm_num : (0 : ℝ) ≤ 50)]
    norm_num
  rw [h, lt_div_iff (by norm_num : (0 : ℝ) < 50), one_mul]
  exact h50

/-- Claim C5 amended: for a rectangle with positive sides fully contained in
a W x H image, the centering distance computed by _rank equals
sqrt(dx^2 + dy^2) / (max(W, H) / 2) with dx = W/2 - x + w/2 and
dy = H/2 - y + h/2, and it lies in [0, 2 * sqrt 2]; the interval [0, 1]
claimed by the specification is wrong because dx is not the offset of the
rectangle center from the image center. -/
theorem centerDistance_formula_bounds (cv : CVOps) (cfg : Config) (W H : ℕ)
    (r : Rect) (hw : 0 < r.w) (hh : 0 < r.h)
    (hxw : r.x + r.w ≤ W) (hyh : r.y + r.h ≤ H) :
    (rawScore cv cfg W H r).d =
      Real.sqrt (((W : ℝ) / 2 - (r.x : ℝ) + (r.w : ℝ) / 2) ^ 2 +
          ((H : ℝ) / 2 - (r.y : ℝ) + (r.h : ℝ) / 2) ^ 2) /
        (((max W H : ℕ) : ℝ) / 2) ∧
      0 ≤ (rawScore cv cfg W H r).d ∧
      (rawScore cv cfg W H r).d ≤ 2 * Real.sqrt 2 := by
  have hmax : max H W = max W H := max_comm H W
  have hWpos : 0 < W := by omega
  have hMnat : 0 < max H W := by omega
  have hMpos : (0 : ℝ) < ((max H W : ℕ) : ℝ) := by exact_mod_cast hMnat
  have hxR : (r.x : ℝ) + (r.w : ℝ) ≤ (W : ℝ) := by exact_mod_cast hxw
  have hyR : (r.y : ℝ) + (r.h : ℝ) ≤ (H : ℝ) := by exact_mod_cast hyh
  have hWM : (W : ℝ) ≤ ((max H W : ℕ) : ℝ) := by exact_mod_cast Nat.le_max_right H W
  have hHM : (H : ℝ) ≤ ((max H W : ℕ) : ℝ) := by exact_mod_cast Nat.le_max_left H W
  have hx0 : (0 : ℝ) ≤ (r.x : ℝ) := Nat.cast_nonneg _
  have hy0 : (0 : ℝ) ≤ (r.y : ℝ) := Nat.cast_nonneg _
  have hw0 : (0 : ℝ) ≤ (r.w : ℝ) := Nat.cast_nonneg _
  have hh0 : (0 : ℝ) ≤ (r.h : ℝ) := Nat.cast_nonneg _
  have hW0 : (0 : ℝ) ≤ (W : ℝ) := Nat.cast_nonneg _
  have hH0 : (0 : ℝ) ≤ (H : ℝ) := Nat.cast_nonneg _
  have hdx2 : ((W : ℝ) / 2 - (r.x : ℝ) + (r.w : ℝ) / 2) ^ 2 ≤
      ((max H W : ℕ) : ℝ) ^ 2 := by
    have h1 : (W : ℝ) / 2 - (r.x : ℝ) + (r.w : ℝ) / 2 ≤ ((max H W : ℕ) : ℝ) := by
      linarith
    have h2 : -((max H W : ℕ) : ℝ) ≤ (W : ℝ) / 2 - (r.x : ℝ) + (r.w : ℝ) / 2 := by
      linarith
    exact sq_le_sq' h2 h1
  have hdy2 : ((H : ℝ) / 2 - (r.y : ℝ) + (r.h : ℝ) / 2) ^ 2 ≤
      ((max H W : ℕ) : ℝ) ^ 2 := by
    have h1 : (H : ℝ) / 2 - (r.y : ℝ) + (r.h : ℝ) / 2 ≤ ((max H W : ℕ) : ℝ) := by
      linarith
    have h2 : -((max H W : ℕ) : ℝ) ≤ (H : ℝ) / 2 - (r.y : ℝ) + (r.h : ℝ) / 2 := by
      linarith
    exact sq_le_sq' h2 h1
  have hkey : centerDistance W H r ≤ 2 * Real.sqrt 2 := by
    rw [centerDistance]
    rw [div_le_iff (by positivity : (0 : ℝ) < ((max H W : ℕ) : ℝ) / 2)]
    calc Real.sqrt (((W : ℝ) / 2 - (r.x : ℝ) + (r.w : ℝ) / 2) ^ 2 +
            ((H : ℝ) / 2 - (r.y : ℝ) + (r.h : ℝ) / 2) ^ 2)
        ≤ Real.sqrt (2 * ((max H W : ℕ) : ℝ) ^ 2) := by
          refine Real.sqrt_le_sqrt ?_
          linarith
      _ = Real.sqrt 2 * ((max H W : ℕ) : ℝ) := by
          rw [Real.sqrt_mul (by norm_num : (0 : ℝ) ≤ 2),
            Real.sqrt_sq hMpos.le]
      _ = 2 * Real.sqrt 2 * (((max H W : ℕ) : ℝ) / 2) := by ring
  refine ⟨?_, ?_, ?_⟩
  · show centerDistance W H r = _
    rw [centerDistance, hmax]
  · exact div_nonneg (Real.sqrt_nonneg _) (by positivity)
  · exact hkey

/-- Witness for the amended claim C5 at a concrete contained rectangle. -/
theorem centerDistance_formula_bounds_witness :
    0 < (30 : ℕ) ∧ (10 : ℕ) + 30 ≤ 100 ∧
      0 ≤ (rawScore cvFlat defaultConfig 100 100 ⟨10, 10, 30, 30⟩).d ∧
      (rawScore cvFlat defaultConfig 100 100 ⟨10, 10, 30, 30⟩).d ≤
        2 * Real.sqrt 2 :=
  ⟨by decide, by decide,
    (centerDistance_formula_bounds cvFlat defaultConfig 100 100 ⟨10, 10, 30, 30⟩
      (by decide) (by decide) (by decide) (by decide)).2⟩

/-- Helper: the integer bound int(sqrt(n) / k) computed by detect over floats
equals the natural-number expression Nat.sqrt n / k. -/
theorem natSqrt_div (n k : ℕ) :
    Nat.sqrt n / k = ⌊Real.sqrt ((n : ℕ) : ℝ) / ((k : ℕ) : ℝ)⌋₊ := by
  rw [Nat.floor_div_nat, Real.nat_floor_real_sqrt_eq_nat_sqrt]

/-- Claim C8: detect computes side = sqrt(W * H), integer size bounds
minSide = int(side / 20) and maxSide = int(side / 2), and invokes the
external cascade search with scale factor 1.1, minNeighbors 4, the
Canny-pruning flag always set, the biggest-object flag set exactly when
biggestOnly holds, and the size bounds (minSide, minSide) and
(maxSide, maxSide). -/
theorem detect_invocation (cc : Cascade) (W H : ℕ) (biggest : Bool) :
    detect cc W H biggest =
      cc.detectMultiScale (W, H) (1.1 : ℚ) 4
        (CASCADE_DO_CANNY_PRUNING |||
          (if biggest then CASCADE_FIND_BIGGEST_OBJECT else 0))
        (⌊Real.sqrt ((W * H : ℕ) : ℝ) / ((20 : ℕ) : ℝ)⌋₊,
         ⌊Real.sqrt ((W * H : ℕ) : ℝ) / ((20 : ℕ) : ℝ)⌋₊)
        (⌊Real.sqrt ((W * H : ℕ) : ℝ) / ((2 : ℕ) : ℝ)⌋₊,
         ⌊Real.sqrt ((W * H : ℕ) : ℝ) / ((2 : ℕ) : ℝ)⌋₊) ∧
      (CASCADE_DO_CANNY_PRUNING |||
        (if biggest then CASCADE_FIND_BIGGEST_OBJECT else 0)).testBit 0 = true ∧
      ((CASCADE_DO_CANNY_PRUNING |||
        (if biggest then CASCADE_FIND_BIGGEST_OBJECT else 0)).testBit 2 = biggest) := by
  refine ⟨?_, ?_, ?_⟩
  · rw [detect, natSqrt_div (W * H) 20, natSqrt_div (W * H) 2]
  · cases biggest <;> decide
  · cases biggest <;> decide

/-- Claim C6 counterexample: _norm_rect truncates the scaled sides with
int() instead of rounding: for a 100 x 37 rectangle the scale is 1.1 and the
computed target height is int(37 * 1.1) = int(40.7) = 40, while the claimed
round(37 * 1.1) is 41. -/
theorem aspect_target_not_round :
    norm_dsize defaultConfig ⟨0, 0, 100, 37⟩ true = (110, 40) ∧
      round ((37 : ℚ) * ((110 : ℚ) / (100 : ℚ))) = 41 := by
  constructor
  · simp only [norm_dsize, defaultConfig]
    norm_num
    rw [Nat.floor_eq_iff (by norm_num)]
    norm_num
  · rw [round_eq,
      show (37 : ℚ) * ((110 : ℚ) / (100 : ℚ)) + 1 / 2 = 206 / 5 from by norm_num,
      Int.floor_eq_iff]
    norm_num

/-- Claim C6 amended: with preserveAspect the scale is
(NORM_SIZE + NORM_MARGIN) / max(w, h), but the target size truncates instead
of rounding: dsize = (floor(w * scale), floor(h * scale)).  For w at least h
the target width is exactly NORM_SIZE + NORM_MARGIN and the target height
preserves the aspect within one pixel before trimming (it is the floor of
targetWidth * h / w); the margin trim then applies _shave_margin to both
sides, which does not preserve the width/height quotient in general. -/
theorem aspect_target_floor (cfg : Config) (r : Rect) (hh : 0 < r.h)
    (hhw : r.h ≤ r.w) :
    norm_dsize cfg r true =
      (⌊(r.w : ℚ) * (((cfg.NORM_SIZE + cfg.NORM_MARGIN : ℕ) : ℚ) /
          ((max r.w r.h : ℕ) : ℚ))⌋₊,
       ⌊(r.h : ℚ) * (((cfg.NORM_SIZE + cfg.NORM_MARGIN : ℕ) : ℚ) /
          ((max r.w r.h : ℕ) : ℚ))⌋₊) ∧
      (norm_dsize cfg r true).1 = cfg.NORM_SIZE + cfg.NORM_MARGIN ∧
      ((norm_dsize cfg r true).2 : ℚ) * (r.w : ℚ) ≤
        ((cfg.NORM_SIZE + cfg.NORM_MARGIN : ℕ) : ℚ) * (r.h : ℚ) ∧
      ((cfg.NORM_SIZE + cfg.NORM_MARGIN : ℕ) : ℚ) * (r.h : ℚ) <
        (((norm_dsize cfg r true).2 : ℚ) + 1) * (r.w : ℚ) ∧
      norm_rect_dims cfg r true =
        (sliceLen cfg.NORM_MARGIN (norm_dsize cfg r true).1,
         sliceLen cfg.NORM_MARGIN (norm_dsize cfg r true).2) := by
  have hw : 0 < r.w := lt_of_lt_of_le hh hhw
  have hmax : max r.w r.h = r.w := max_eq_left hhw
  have hwQ : (0 : ℚ) < (r.w : ℚ) := by exact_mod_cast hw
  have hq0 : (0 : ℚ) ≤ (r.h : ℚ) * (((cfg.NORM_SIZE + cfg.NORM_MARGIN : ℕ) : ℚ) /
      ((max r.w r.h : ℕ) : ℚ)) := by positivity
  have hd2 : (norm_dsize cfg r true).2 =
      ⌊(r.h : ℚ) * (((cfg.NORM_SIZE + cfg.NORM_MARGIN : ℕ) : ℚ) /
        ((max r.w r.h : ℕ) : ℚ))⌋₊ := rfl
  refine ⟨rfl, ?_, ?_, ?_, rfl⟩
  · show ⌊(r.w : ℚ) * (((cfg.NORM_SIZE + cfg.NORM_MARGIN : ℕ) : ℚ) /
        ((max r.w r.h : ℕ) : ℚ))⌋₊ = cfg.NORM_SIZE + cfg.NORM_MARGIN
    rw [hmax]
    rw [mul_div_cancel₀ _ (ne_of_gt hwQ)]
    exact Nat.floor_natCast _
  · rw [hd2, hmax]
    have hfl := Nat.floor_le (by rw [hmax] at hq0; exact hq0)
    calc ((⌊(r.h : ℚ) * (((cfg.NORM_SIZE + cfg.NORM_MARGIN : ℕ) : ℚ) /
            ((r.w : ℕ) : ℚ))⌋₊ : ℚ)) * (r.w : ℚ)
        ≤ ((r.h : ℚ) * (((cfg.NORM_SIZE + cfg.NORM_MARGIN : ℕ) : ℚ) /
            ((r.w : ℕ) : ℚ))) * (r.w : ℚ) := by
          exact mul_le_mul_of_nonneg_right hfl hwQ.le
      _ = ((cfg.NORM_SIZE + cfg.NORM_MARGIN : ℕ) : ℚ) * (r.h : ℚ) := by
          field_simp
          ring
  · rw [hd2, hmax]
    have hfl := Nat.lt_floor_add_one ((r.h : ℚ) *
      (((cfg.NORM_SIZE + cfg.NORM_MARGIN : ℕ) : ℚ) / ((r.w : ℕ) : ℚ)))
    calc ((cfg.NORM_SIZE + cfg.NORM_MARGIN : ℕ) : ℚ) * (r.h : ℚ)
        = ((r.h : ℚ) * (((cfg.NORM_SIZE + cfg.NORM_MARGIN : ℕ) : ℚ) /
            ((r.w : ℕ) : ℚ))) * (r.w : ℚ) := by
          field_simp
          ring
      _ < ((⌊(r.h : ℚ) * (((cfg.NORM_SIZE + cfg.NORM_MARGIN : ℕ) : ℚ) /
            ((r.w : ℕ) : ℚ))⌋₊ : ℚ) + 1) * (r.w : ℚ) := by
          exact mul_lt_mul_of_pos_right hfl hwQ

/-- Witness for the amended claim C6 at the 100 x 37 rectangle. -/
theorem aspect_target_floor_witness :
    0 < (37 : ℕ) ∧ (37 : ℕ) ≤ 100 ∧
      (norm_dsize defaultConfig ⟨0, 0, 100, 37⟩ true).1 = 110 :=
  ⟨by decide, by decide,
    (aspect_target_floor defaultConfig ⟨0, 0, 100, 37⟩
      (by decide) (by decide)).2.1⟩

/-- Helper: inserting an index permutes consing it. -/
theorem insertDesc_perm (k : ℕ → ℝ) (x : ℕ) (l : List ℕ) :
    (insertDesc k x l).Perm (x :: l) := by
  induction l with
  | nil => simp [insertDesc]
  | cons y ys ih =>
    simp only [insertDesc]
    by_cases h : k y < k x
    · rw [if_pos h]
    · rw [if_neg h]
      exact (ih.cons y).trans (List.Perm.swap x y ys)

/-- Helper: membership after insertion. -/
theorem insertDesc_mem (k : ℕ → ℝ) (x z : ℕ) (l : List ℕ) :
    z ∈ insertDesc k x l ↔ z = x ∨ z ∈ l := by
  rw [(insertDesc_perm k x l).mem_iff, List.mem_cons]

/-- Helper: inserting an index larger than every held index preserves the
stable descending pairwise order. -/
theorem insertDesc_pairwise (k : ℕ → ℝ) (x : ℕ) (l : List ℕ)
    (hp : l.Pairwise (keyRel k)) (hlt : ∀ y ∈ l, y < x) :
    (insertDesc k x l).Pairwise (keyRel k) := by
  induction l with
  | nil => simp [insertDesc]
  | cons y ys ih =>
    rw [List.pairwise_cons] at hp
    obtain ⟨hy, hys⟩ := hp
    simp only [insertDesc]
    by_cases h : k y < k x
    · rw [if_pos h]
      refine List.Pairwise.cons ?_ (List.Pairwise.cons hy hys)
      intro z hz
      rcases List.mem_cons.mp hz with rfl | hz
      · exact Or.inl h
      · rcases hy z hz with h2 | ⟨h2, _⟩
        · exact Or.inl (h2.trans h)
        · exact Or.inl (h2 ▸ h)
    · rw [if_neg h]
      push_neg at h
      refine List.Pairwise.cons ?_
        (ih hys (fun a ha => hlt a (List.mem_cons_of_mem y ha)))
      intro z hz
      rcases (insertDesc_mem k x z ys).mp hz with rfl | hz
      · rcases lt_or_eq_of_le h with h2 | h2
        · exact Or.inl h2
        · exact Or.inr ⟨h2.symm, hlt y (List.mem_cons_self y ys)⟩
      · exact hy z hz

/-- Helper: folding stable insertions of a strictly increasing list of fresh
indices into an ordered accumulator keeps the stable descending order and
permutes the inputs. -/
theorem sortDesc_aux (k : ℕ → ℝ) :
    ∀ (l acc : List ℕ), acc.Pairwise (keyRel k) →
      (∀ a ∈ acc, ∀ b ∈ l, a < b) → l.Pairwise (· < ·) →
      (l.foldl (fun acc x => insertDesc k x acc) acc).Pairwise (keyRel k) ∧
        (l.foldl (fun acc x => insertDesc k x acc) acc).Perm (acc ++ l) := by
  intro l
  induction l with
  | nil =>
    intro acc h _ _
    simpa using h
  | cons b l ih =>
    intro acc hacc hcross hl
    rw [List.pairwise_cons] at hl
    obtain ⟨hb, hl⟩ := hl
    rw [List.foldl_cons]
    have h1 : (insertDesc k b acc).Pairwise (keyRel k) :=
      insertDesc_pairwise k b acc hacc
        (fun a ha => hcross a ha b (List.mem_cons_self b l))
    have h2 : ∀ a ∈ insertDesc k b acc, ∀ c ∈ l, a < c := by
      intro a ha c hc
      rcases (insertDesc_mem k b a acc).mp ha with rfl | ha
      · exact hb c hc
      · exact hcross a ha c (List.mem_cons_of_mem b hc)
    obtain ⟨hp, hq⟩ := ih (insertDesc k b acc) h1 h2 hl
    refine ⟨hp, hq.trans ?_⟩
    have h3 : (insertDesc k b acc ++ l).Perm ((b :: acc) ++ l) :=
      (insertDesc_perm k b acc).append_right l
    refine h3.trans ?_
    simpa using List.perm_middle.symm

/-- Helper: the ranked index list is stably ordered by descending fitness. -/
theorem rankIndices_pairwise (scores : List Score) :
    (rankIndices scores).Pairwise (keyRel (fitnessKey scores)) :=
  (sortDesc_aux (fitnessKey scores) (List.range scores.length) []
    List.Pairwise.nil (by simp) (List.pairwise_lt_range _)).1

/-- Helper: the ranked index list permutes the original index range. -/
theorem rankIndices_perm (scores : List Score) :
    (rankIndices scores).Perm (List.range scores.length) := by
  have h := (sortDesc_aux (fitnessKey scores) (List.range scores.length) []
    List.Pairwise.nil (by simp) (List.pairwise_lt_range _)).2
  simpa using h

/-- Helper: position lookup in a duplicate-free list inverts indexing. -/
theorem indexOf_getD_nodup (l : List ℕ) (hn : l.Nodup) :
    ∀ i, i < l.length → l.indexOf (l.getD i 0) = i := by
  induction l with
  | nil =>
    intro i hi
    simp at hi
  | cons a l ih =>
    intro i hi
    rw [List.nodup_cons] at hn
    obtain ⟨ha, hl⟩ := hn
    cases i with
    | zero => simp
    | succ n =>
      have hn2 : n < l.length := by simpa using hi
      have hmem : l.getD n 0 ∈ l := by
        rw [List.getD_eq_getElem _ _ hn2]
        exact List.getElem_mem hn2
      have hne : a ≠ l.getD n 0 := fun hEq => ha (hEq ▸ hmem)
      have hstep : (a :: l).getD (n + 1) 0 = l.getD n 0 := rfl
      rw [hstep, List.indexOf_cons_ne _ hne, ih hl n hn2]

/-- Claim C2: for a non-empty input sequence, _rank sorts the indices by
fitness descending with ties broken by original input order (the ranked list
is a permutation of the index range, pairwise ordered by strictly larger
fitness or equal fitness with smaller original index), assigns RANK i to the
index at sorted position i (so rank 0 goes to the largest fitness), and the
returned bestIndex attains the maximal fitness of the call. -/
theorem rank_sort_spec (cv : CVOps) (cfg : Config) (W H : ℕ)
    (rects : List Rect) (hne : rects ≠ []) :
    (rankIndices (rankScores cv cfg W H rects)).Perm
        (List.range rects.length) ∧
      (rankIndices (rankScores cv cfg W H rects)).Pairwise
        (keyRel (fitnessKey (rankScores cv cfg W H rects))) ∧
      (∀ i, i < (rankIndices (rankScores cv cfg W H rects)).length →
        rankOf (rankScores cv cfg W H rects)
          ((rankIndices (rankScores cv cfg W H rects)).getD i 0) = i) ∧
      rankOf (rankScores cv cfg W H rects)
        (bestIndex (rankScores cv cfg W H rects)) = 0 ∧
      ∀ j, j < rects.length →
        fitnessKey (rankScores cv cfg W H rects) j ≤
          fitnessKey (rankScores cv cfg W H rects)
            (bestIndex (rankScores cv cfg W H rects)) := by
  have hlen : (rankScores cv cfg W H rects).length = rects.length := by
    simp [rankScores]
  have hperm : (rankIndices (rankScores cv cfg W H rects)).Perm
      (List.range rects.length) := by
    rw [← hlen]
    exact rankIndices_perm _
  have hpw := rankIndices_pairwise (rankScores cv cfg W H rects)
  have hnodup : (rankIndices (rankScores cv cfg W H rects)).Nodup :=
    hperm.nodup_iff.mpr (List.nodup_range _)
  have hrank : ∀ i, i < (rankIndices (rankScores cv cfg W H rects)).length →
      rankOf (rankScores cv cfg W H rects)
        ((rankIndices (rankScores cv cfg W H rects)).getD i 0) = i :=
    fun i hi => indexOf_getD_nodup _ hnodup i hi
  have hlen2 : (rankIndices (rankScores cv cfg W H rects)).length =
      rects.length := by
    rw [hperm.length_eq, List.length_range]
  have hlenpos : 0 < (rankIndices (rankScores cv cfg W H rects)).length := by
    rw [hlen2]
    exact List.length_pos.mpr hne
  have hbest : bestIndex (rankScores cv cfg W H rects) =
      (rankIndices (rankScores cv cfg W H rects)).getD 0 0 := by
    cases hh : rankIndices (rankScores cv cfg W H rects) with
    | nil =>
      rw [hh] at hlenpos
      simp at hlenpos
    | cons a t => simp [bestIndex, hh]
  have hrank0 : rankOf (rankScores cv cfg W H rects)
      (bestIndex (rankScores cv cfg W H rects)) = 0 := by
    rw [hbest]
    exact hrank 0 hlenpos
  refine ⟨hperm, hpw, hrank, hrank0, ?_⟩
  intro j hj
  have hjmem : j ∈ rankIndices (rankScores cv cfg W H rects) :=
    hperm.mem_iff.mpr (List.mem_range.mpr hj)
  cases hh : rankIndices (rankScores cv cfg W H rects) with
  | nil =>
    rw [hh] at hjmem
    simp at hjmem
  | cons a t =>
    have hbest2 : bestIndex (rankScores cv cfg W H rects) = a := by
      simp [bestIndex, hh]
    rw [hh] at hjmem hpw
    rw [hbest2]
    rcases List.mem_cons.mp hjmem with rfl | hjt
    · exact le_refl _
    · rcases (List.pairwise_cons.mp hpw).1 j hjt with h | ⟨h, _⟩
      · exact h.le
      · exact h.ge

/-- Witness for claim C2 on a singleton batch. -/
theorem rank_sort_spec_witness :
    ([(⟨0, 0, 10, 10⟩ : Rect)] ≠ []) ∧
      rankOf (rankScores cvFlat defaultConfig 100 100 [⟨0, 0, 10, 10⟩])
        (bestIndex (rankScores cvFlat defaultConfig 100 100 [⟨0, 0, 10, 10⟩]))
        = 0 :=
  ⟨List.cons_ne_nil _ _,
    (rank_sort_spec cvFlat defaultConfig 100 100 [⟨0, 0, 10, 10⟩]
      (List.cons_ne_nil _ _)).2.2.2.1⟩

/-- Claim C1: for every rectangle of a non-empty batch scored together by
_rank, the stored composite score equals
0.7 * sharpnessNorm + 0.1 * (1 - centerDistance) + 0.2 * sizeNorm, where
sharpnessNorm and sizeNorm divide by the batch maxima of the sharpness and
of the size attribute, and the size attribute is (width + height) / 2. -/
theorem rank_fitness_formula (cv : CVOps) (cfg : Config) (W H : ℕ)
    (rects : List Rect) (i : ℕ) (hi : i < rects.length) :
    ((rankScores cv cfg W H rects).getD i default).f =
      0.7 * (sharpness cv cfg (rects.getD i ⟨0, 0, 0, 0⟩) /
          listMax (rects.map (fun r => sharpness cv cfg r))) +
        0.1 * (1 - centerDistance W H (rects.getD i ⟨0, 0, 0, 0⟩)) +
        0.2 * (((((rects.getD i ⟨0, 0, 0, 0⟩).w : ℝ) +
              ((rects.getD i ⟨0, 0, 0, 0⟩).h : ℝ)) / 2) /
            listMax (rects.map (fun r => ((r.w : ℝ) + (r.h : ℝ)) / 2))) := by
  have hmape : eMaxOf (rects.map (rawScore cv cfg W H)) =
      listMax (rects.map (fun r => sharpness cv cfg r)) := by
    rw [eMaxOf, List.map_map]
    rfl
  have hmaps : sMaxOf (rects.map (rawScore cv cfg W H)) =
      listMax (rects.map (fun r => ((r.w : ℝ) + (r.h : ℝ)) / 2)) := by
    rw [sMaxOf, List.map_map]
    rfl
  have hlen2 : i < (rankScores cv cfg W H rects).length := by
    simpa [rankScores] using hi
  have hlen1 : i < (rects.map (rawScore cv cfg W H)).length := by
    simpa using hi
  rw [List.getD_eq_getElem _ _ hlen2, List.getD_eq_getElem _ _ hi]
  simp only [rankScores, List.getElem_map]
  simp only [hmape, hmaps, rawScore]
  ring

/-- Witness for claim C1 on a singleton batch. -/
theorem rank_fitness_formula_witness :
    0 < ([(⟨0, 0, 10, 10⟩ : Rect)]).length ∧
      ((rankScores cvFlat defaultConfig 100 100 [⟨0, 0, 10, 10⟩]).getD 0
          default).f =
        0.7 * (sharpness cvFlat defaultConfig
            (([(⟨0, 0, 10, 10⟩ : Rect)]).getD 0 ⟨0, 0, 0, 0⟩) /
            listMax (([(⟨0, 0, 10, 10⟩ : Rect)]).map
              (fun r => sharpness cvFlat defaultConfig r))) +
          0.1 * (1 - centerDistance 100 100
            (([(⟨0, 0, 10, 10⟩ : Rect)]).getD 0 ⟨0, 0, 0, 0⟩)) +
          0.2 * ((((((([(⟨0, 0, 10, 10⟩ : Rect)]).getD 0 ⟨0, 0, 0, 0⟩).w : ℝ)) +
                ((([(⟨0, 0, 10, 10⟩ : Rect)]).getD 0 ⟨0, 0, 0, 0⟩).h : ℝ)) / 2) /
              listMax (([(⟨0, 0, 10, 10⟩ : Rect)]).map
                (fun r => ((r.w : ℝ) + (r.h : ℝ)) / 2))) :=
  ⟨by decide,
    rank_fitness_formula cvFlat defaultConfig 100 100 [⟨0, 0, 10, 10⟩] 0
      (by decide)⟩

/-- Helper: the SSIM quotient at one pixel of a self-comparison, with the
variance term nonnegative and positive stabilizing constants, equals 1. -/
theorem ssim_frac_one (A V C1 C2 : ℝ) (hC1 : 0 < C1) (hV : 0 ≤ V)
    (hC2 : 0 < C2) :
    ((2 * A * A + C1) * (2 * V + C2)) /
      ((A ^ 2 + A ^ 2 + C1) * (V + V + C2)) = 1 := by
  have h1 : 0 < A ^ 2 + A ^ 2 + C1 := by
    have := sq_nonneg A
    linarith
  have h2 : 0 < V + V + C2 := by linarith
  rw [div_eq_one_iff_eq (mul_pos h1 h2).ne']
  ring

/-- Helper (Cauchy-Schwarz for a convex-combination filter): the square of a
blurred image is bounded by the blur of its pointwise square, which makes the
local variance map of _mssim_norm nonnegative. -/
theorem blur2_sq_le (h w : ℕ) (wgt : Kern) (X : Img)
    (hker : GaussKernel h w wgt) (i j : ℕ) :
    blur2 h w wgt X i j ^ 2 ≤ blur2 h w wgt (fun a b => X a b * X a b) i j := by
  obtain ⟨hnn, hsum⟩ := hker i j
  have key := Finset.sum_mul_sq_le_sq_mul_sq (Finset.range h ×ˢ Finset.range w)
    (fun p => Real.sqrt (wgt i j p.1 p.2))
    (fun p => Real.sqrt (wgt i j p.1 p.2) * X p.1 p.2)
  have e1 : ∀ p ∈ Finset.range h ×ˢ Finset.range w,
      Real.sqrt (wgt i j p.1 p.2) * (Real.sqrt (wgt i j p.1 p.2) * X p.1 p.2) =
        wgt i j p.1 p.2 * X p.1 p.2 := by
    intro p _
    rw [← mul_assoc, Real.mul_self_sqrt (hnn p.1 p.2)]
  have e2 : ∀ p ∈ Finset.range h ×ˢ Finset.range w,
      Real.sqrt (wgt i j p.1 p.2) ^ 2 = wgt i j p.1 p.2 := by
    intro p _
    exact Real.sq_sqrt (hnn p.1 p.2)
  have e3 : ∀ p ∈ Finset.range h ×ˢ Finset.range w,
      (Real.sqrt (wgt i j p.1 p.2) * X p.1 p.2) ^ 2 =
        wgt i j p.1 p.2 * (X p.1 p.2 * X p.1 p.2) := by
    intro p _
    rw [mul_pow, Real.sq_sqrt (hnn p.1 p.2)]
    ring
  rw [Finset.sum_congr rfl e1, Finset.sum_congr rfl e2,
    Finset.sum_congr rfl e3, hsum, one_mul] at key
  simpa [blur2] using key

/-- Helper: with identical inputs the per-pixel SSIM map of _mssim_norm is
identically 1 at every pixel. -/
theorem mssimMap_self (h w : ℕ) (wgt : Kern) (K1 K2 : ℝ) (win : ℕ) (X : Img)
    (hker : GaussKernel h w wgt) (hK1 : K1 ≠ 0) (hK2 : K2 ≠ 0) (i j : ℕ) :
    mssimMap h w wgt K1 K2 win X X i j = 1 := by
  have hK1sq : 0 < K1 ^ 2 := lt_of_le_of_ne (sq_nonneg K1) (Ne.symm (pow_ne_zero 2 hK1))
  have hK2sq : 0 < K2 ^ 2 := lt_of_le_of_ne (sq_nonneg K2) (Ne.symm (pow_ne_zero 2 hK2))
  have hvar := blur2_sq_le h w wgt X hker i j
  have hV : 0 ≤ ((win : ℝ) ^ 2) *
      (blur2 h w wgt (fun a b => X a b * X a b) i j -
        blur2 h w wgt X i j * blur2 h w wgt X i j) := by
    refine mul_nonneg (sq_nonneg _) ?_
    have h2 : blur2 h w wgt X i j * blur2 h w wgt X i j =
        blur2 h w wgt X i j ^ 2 := (sq (blur2 h w wgt X i j)).symm ▸ rfl
    nlinarith [hvar]
  simp only [mssimMap]
  exact ssim_frac_one (blur2 h w wgt X i j)
    (((win : ℝ) ^ 2) *
      (blur2 h w wgt (fun a b => X a b * X a b) i j -
        blur2 h w wgt X i j * blur2 h w wgt X i j))
    (K1 ^ 2) (K2 ^ 2) hK1sq hV hK2sq

/-- Claim C9: the structural-similarity computation applied to an image
against itself, for an image at least windowSize in each dimension (and a
window of at least 3 so that the shaved border is meaningful), has a
per-pixel SSIM map identically 1, and the trimmed mean returned by
_mssim_norm is exactly 1. -/
theorem mssim_self_one (h w win : ℕ) (K1 K2 : ℝ) (wgt : Kern) (X : Img)
    (hker : GaussKernel h w wgt) (hK1 : K1 ≠ 0) (hK2 : K2 ≠ 0)
    (hwin : 3 ≤ win) (hh : win ≤ h) (hw : win ≤ w) :
    (∀ i j, mssimMap h w wgt K1 K2 win X X i j = 1) ∧
      mssim_norm h w wgt K1 K2 win X X = 1 := by
  have hpt : ∀ i j, mssimMap h w wgt K1 K2 win X X i j = 1 :=
    fun i j => mssimMap_self h w wgt K1 K2 win X hker hK1 hK2 i j
  refine ⟨hpt, ?_⟩
  rw [mssim_norm]
  have hm : (win - 1) / 2 ≠ 0 := by omega
  rw [shaveRegion, if_neg hm]
  have hcardr : 0 < (Finset.Ico ((win - 1) / 2) (h - (win - 1) / 2)).card := by
    rw [Nat.card_Ico]
    omega
  have hcardc : 0 < (Finset.Ico ((win - 1) / 2) (w - (win - 1) / 2)).card := by
    rw [Nat.card_Ico]
    omega
  have hcard : 0 < ((Finset.Ico ((win - 1) / 2) (h - (win - 1) / 2)) ×ˢ
      (Finset.Ico ((win - 1) / 2) (w - (win - 1) / 2))).card := by
    rw [Finset.card_product]
    exact Nat.mul_pos hcardr hcardc
  rw [Finset.sum_congr rfl (fun p _ => hpt p.1 p.2), Finset.sum_const,
    nsmul_eq_mul, mul_one, div_self]
  exact Nat.cast_ne_zero.mpr hcard.ne'

/-- Witness for claim C9 with the uniform kernel, the default constants
K1 = 0.01 and K2 = 0.03, the default window 11 and an 11 x 11 zero image. -/
theorem mssim_self_one_witness :
    GaussKernel 11 11 (uniformKern 11 11) ∧ (0.01 : ℝ) ≠ 0 ∧
      (0.03 : ℝ) ≠ 0 ∧ (3 : ℕ) ≤ 11 ∧ (11 : ℕ) ≤ 11 ∧
      mssim_norm 11 11 (uniformKern 11 11) 0.01 0.03 11 (fun _ _ => 0)
        (fun _ _ => 0) = 1 := by
  have hker : GaussKernel 11 11 (uniformKern 11 11) := by
    intro i j
    constructor
    · intro a b
      simp only [uniformKern]
      norm_num
    · simp only [uniformKern, Finset.sum_const, Finset.card_product,
        Finset.card_range, nsmul_eq_mul]
      norm_num
  exact ⟨hker, by norm_num, by norm_num, by norm_num, by norm_num,
    (mssim_self_one 11 11 11 0.01 0.03 (uniformKern 11 11) (fun _ _ => 0)
      hker (by norm_num) (by norm_num) (by norm_num) (by norm_num)
      (by norm_num)).2⟩
